import Mathlib

/-!
# Verification of the castra partitioned columnar store (`castra/core.py`)

Shallow embedding of the parts of `castra/core.py` needed to settle the
frozen claims: the categorical dictionary subsystem (`_decategorize` /
`_categorize`), the partition range-selection algorithm
(`select_partitions`), the partition-index update performed by `extend`,
metadata persistence (`flush_meta` / `load_meta`), the per-column
dictionary logs (`append_categories` / `load_categories`), and the
column pack/unpack protocol (`pack_file` / `unpack_file`).

Python values stored in object columns are modelled by `PyVal`
(integers, strings, and NaN).  Fallible Python code (code that can raise)
is modelled with `Option`/`Except`, `none`/`.error` meaning an exception
escapes.  Machine-level concerns (actual compressed bytes, pickling) are
out of the repository's code and are modelled at the level of the values
they transport, per the spec's external-collaborator contracts.
-/

namespace Castra

/-- A Python value as stored in a column: an int, a str, or NaN
(NaN is produced by `pandas.Categorical.from_codes` for code `-1`). -/
inductive PyVal where
  | int : Int → PyVal
  | str : String → PyVal
  | nan : PyVal
  deriving DecidableEq, Repr

/-- A pandas DataFrame with object columns, modelled as an association
list from column name to the list of that column's values (all columns
of one table have the same length in pandas; no claim needs that fact). -/
abbrev Table := List (String × List PyVal)

/-- `m[k]` on a Python dict / column lookup on a DataFrame / label lookup
on a Series, modelled on an association list: first entry with the given
key, `none` = `KeyError`. -/
def aget {κ α : Type} [DecidableEq κ] (m : List (κ × α)) (k : κ) : Option α :=
  match m with
  | [] => none
  | p :: ps => if p.1 = k then some p.2 else aget ps k

@[simp] theorem aget_nil {κ α : Type} [DecidableEq κ] (k : κ) :
    aget ([] : List (κ × α)) k = none := rfl

theorem aget_cons {κ α : Type} [DecidableEq κ] (p : κ × α) (ps : List (κ × α)) (k : κ) :
    aget (p :: ps) k = if p.1 = k then some p.2 else aget ps k := rfl

/-- Lexicographic strict comparison of character lists by code point:
exactly Python's `<` on `str` (Python compares strings by code points,
shorter prefix first). -/
def charsLtB : List Char → List Char → Bool
  | [], [] => false
  | [], _ :: _ => true
  | _ :: _, [] => false
  | a :: as, b :: bs =>
    if a.toNat < b.toNat then true
    else if b.toNat < a.toNat then false
    else charsLtB as bs

/-- Python's `<` on `str`, as a boolean on Lean strings. -/
def strLtB (a b : String) : Bool := charsLtB a.data b.data

/-- Comparison used to fix the iteration order of a CPython `set` of
`PyVal`s in the model.  CPython iterates a freshly built set of small
non-negative ints in increasing value order (`hash(n) = n`, open
addressing over a power-of-two table); for strings the order is
hash-randomized, so any fixed order is a sound model choice.  Only the
relative order of small ints is relied on by any theorem below. -/
def pvLeB : PyVal → PyVal → Bool
  | .int a, .int b => a ≤ b
  | .int _, _ => true
  | .str _, .int _ => false
  | .str a, .str b => !strLtB b a
  | .str _, .nan => true
  | .nan, .nan => true
  | .nan, _ => false

/-- Ordered insertion for `pvSort`. -/
def pvInsert (x : PyVal) : List PyVal → List PyVal
  | [] => [x]
  | y :: ys => if pvLeB x y then x :: y :: ys else y :: pvInsert x ys

/-- Insertion sort by `pvLeB`: the model's fixed set-iteration order. -/
def pvSort : List PyVal → List PyVal
  | [] => []
  | x :: xs => pvInsert x (pvSort xs)

/-- `list(set(xs) - set(cat))` from `_decategorize` (core.py line 337):
the distinct elements of `xs` that are not in `cat`, in the model's
fixed set-iteration order (`pvSort`; see `pvLeB`). -/
def pySetDiff (xs cat : List PyVal) : List PyVal :=
  pvSort ((xs.filter (fun v => decide (v ∉ cat))).dedup)

/-- Modelled from the spec: "append them to the dictionary in
arbitrary-but-deterministic (first-seen) order" — the batch's values not
already in the dictionary, in order of their first occurrence in the
batch.  This follows the spec's words, not the code (`_decategorize`
uses `list(set(..) - set(..))`, whose order is set-iteration order); it
exists only to compare the claimed order with the code's. -/
def firstSeenNew (xs cat : List PyVal) : List PyVal :=
  (xs.filter (fun v => decide (v ∉ cat))).foldl
    (fun acc v => if v ∈ acc then acc else acc ++ [v]) []

/-- Sequence a list of `Option`s, failing if any element fails
(the effect of a Python loop in which any iteration may raise). -/
def omap {α β : Type} (f : α → Option β) : List α → Option (List β)
  | [] => some []
  | x :: xs =>
    match f x, omap f xs with
    | some y, some ys => some (y :: ys)
    | _, _ => none

/-- `pandas.Categorical(values, categories).codes` (core.py line 339):
requires the categories to be unique (else pandas raises), then maps each
value to its position in `categories`, `-1` when absent. -/
def pyCatCodes (values cats : List PyVal) : Option (List PyVal) :=
  if cats.Nodup then
    some (values.map (fun v =>
      PyVal.int (if v ∈ cats then (cats.indexOf v : Int) else -1)))
  else none

/-- `pandas.Categorical.from_codes(codes, categories)` (core.py
lines 357 and 364): requires unique categories and integer codes in
`[-1, len categories)` (else pandas raises); code `-1` decodes to NaN,
any other code to the category at that position. -/
def pyFromCodes (codes cats : List PyVal) : Option (List PyVal) :=
  if cats.Nodup then
    omap (fun c =>
      match c with
      | .int i =>
          if i = -1 then some PyVal.nan
          else if 0 ≤ i ∧ i < (cats.length : Int) then cats.get? i.toNat
          else none
      | _ => none) codes
  else none

/-- The `extra` dict built by `_decategorize` (core.py line 337):
for each tracked column, the batch values missing from its dictionary.
Fails (`KeyError`) if a tracked column is absent from the table. -/
def decatExtra (categories df : Table) : Option Table :=
  omap (fun p => (aget df p.1).map (fun xs => (p.1, pySetDiff xs p.2))) categories

/-- The `new_categories` dict built by `_decategorize` (core.py
line 338): each tracked column's dictionary extended by its `extra`. -/
def decatNewCats (categories df : Table) : Option Table :=
  omap (fun p => (aget df p.1).map (fun xs => (p.1, p.2 ++ pySetDiff xs p.2)))
    categories

/-- The `new_df` built by `_decategorize` (core.py lines 335-340): the
table's columns in order, tracked columns replaced by their codes in the
updated dictionary, untracked columns unchanged. -/
def decatNewDf (categories df : Table) : Option Table :=
  omap (fun p =>
    match aget categories p.1 with
    | some cat => (pyCatCodes p.2 (cat ++ pySetDiff p.2 cat)).map (fun cs => (p.1, cs))
    | none => some p) df

/-- `_decategorize(categories, df)` (core.py lines 309-341): returns
`(extra, new_categories, new_df)`, or `none` when the Python code would
raise (tracked column missing from the table, or duplicate categories). -/
def _decategorize (categories df : Table) : Option (Table × Table × Table) :=
  match decatExtra categories df, decatNewCats categories df, decatNewDf categories df with
  | some extra, some newCats, some newDf => some (extra, newCats, newDf)
  | _, _, _ => none

/-- `_categorize(categories, df)` for the DataFrame branch (core.py
lines 362-369): every column with a registered dictionary is decoded
with `Categorical.from_codes`, other columns pass through unchanged. -/
def _categorize (categories df : Table) : Option Table :=
  omap (fun p =>
    match aget categories p.1 with
    | some cat => (pyFromCodes p.2 cat).map (fun ys => (p.1, ys))
    | none => some p) df

/-! ## Partition index and `select_partitions` -/

/-- A partition as produced by one `extend` call: its rows' minimum key,
maximum key, and the partition directory name.  Keys are modelled as
`Int` (the integer-index path of the store; `coerce_index` is the
identity there). -/
structure Part where
  minK : Int
  maxK : Int
  name : String
  deriving DecidableEq, Repr

/-- A partition index "built from extend calls with disjoint, increasing
key ranges": every partition's min key is at most its max key, and every
partition's max key is below every later partition's min key (stated
pairwise; given `min ≤ max` per partition this is equivalent to the
adjacent-partition chain condition). -/
def validParts (ps : List Part) : Prop :=
  (∀ p ∈ ps, p.minK ≤ p.maxK) ∧ List.Pairwise (fun p q => p.maxK < q.minK) ps

instance (ps : List Part) : Decidable (validParts ps) :=
  inferInstanceAs (Decidable ((∀ p ∈ ps, p.minK ≤ p.maxK) ∧
    List.Pairwise (fun (p q : Part) => p.maxK < q.minK) ps))

/-- The `pd.Series` partition index held by a store: one
`max_key -> partition_name` entry per partition, in partition order
(core.py line 158 appends one entry per `extend`). -/
def pIndex (ps : List Part) : List (Int × String) :=
  ps.map (fun p => (p.maxK, p.name))

/-- `escape(text) = str(text)` (core.py lines 32-33) applied to an `Int`
key: Python's `str` of an int prints exactly as Lean's `toString`. -/
def escape (i : Int) : String := toString i

/-- `'--'.join([escape(index.min()), escape(index.max())])`
(core.py line 137): the partition directory name. -/
def partName (mn mx : Int) : String := escape mn ++ "--" ++ escape mx

/-- `coerce_index(dt, o)` (core.py lines 283-286) for an integer index
dtype: `np.issubdtype(int64, datetime64)` is false, so `o` is returned
unchanged. -/
def coerce_index (o : Int) : Int := o

/-- `list(partitions.loc[start:stop])` (core.py line 298): label-based
slicing of a Series with a sorted index keeps exactly the entries whose
key lies in the closed interval `[start, stop]`; `list` of a Series
yields its values (the partition names). -/
def locSlice (partitions : List (Int × String)) (start stop : Int) : List String :=
  (partitions.filter (fun p => decide (start ≤ p.1 ∧ p.1 ≤ stop))).map Prod.snd

/-- One step of `np.searchsorted(values, v, side='left')`: binary search
for the left insertion point of `v` in `values` (assumed sorted by the
caller; numpy does not check).  Structural fuel makes the definition
kernel-computable; `bisectLeft` supplies fuel `values.length`, which
bounds the number of iterations since `hi - lo` strictly decreases. -/
def bisectGo (a : List String) (v : String) : Nat → Nat → Nat → Nat
  | 0, lo, _ => lo
  | fuel + 1, lo, hi =>
    if lo < hi then
      let mid := (lo + hi) / 2
      if strLtB (a.getD mid "") v then bisectGo a v fuel (mid + 1) hi
      else bisectGo a v fuel lo mid
    else lo

/-- `partitions.searchsorted(names[-1])[0]` (core.py line 300):
`Series.searchsorted` binary-searches the series *values* (the partition
name strings, compared with Python's `str <`). -/
def bisectLeft (a : List String) (v : String) : Nat :=
  bisectGo a v a.length 0 a.length

/-- `select_partitions(partitions, key)` (core.py lines 289-306) for a
slice with integer endpoints (`key.step is None` holds by construction).
`none` models an exception escaping: `names[-1]` on an empty selection
(`IndexError`), or `partitions.index[last]` out of range (`IndexError`).
`partitions.iloc[last + 1]` is guarded by `len(partitions) > last + 1`,
so its `getD` is always in range. -/
def select_partitions (partitions : List (Int × String)) (start stop : Int) :
    Option (List String) :=
  let names := locSlice partitions start stop
  match names.getLast? with
  | none => none
  | some lastName =>
    let last := bisectLeft (partitions.map Prod.snd) lastName
    match (partitions.map Prod.fst).get? last with
    | none => none
    | some lastKey =>
      if lastKey < coerce_index stop ∧ partitions.length > last + 1 then
        some (names ++ [(partitions.map Prod.snd).getD (last + 1) ""])
      else some names

/-- Partition `p`'s key range `[p.minK, p.maxK]` intersects the queried
closed interval `[start, stop]`. -/
def intersects (p : Part) (start stop : Int) : Prop :=
  start ≤ p.maxK ∧ p.minK ≤ stop

instance (p : Part) (start stop : Int) : Decidable (intersects p start stop) :=
  inferInstanceAs (Decidable (start ≤ p.maxK ∧ p.minK ≤ stop))

/-! ## The partition-index update performed by `extend` -/

/-- `self.partitions[index.max()] = partition_name` (core.py line 158):
label-based Series item assignment overwrites the value at an existing
label, and appends a new `(label, value)` entry otherwise. -/
def seriesSet (parts : List (Int × String)) (k : Int) (v : String) :
    List (Int × String) :=
  if parts.any (fun p => decide (p.1 = k)) then
    parts.map (fun p => if p.1 = k then (k, v) else p)
  else parts ++ [(k, v)]

/-- Core.py lines 156-158: the partition-index and global-minimum update
at the end of `extend`, given the new batch's min and max keys.  The
minimum is set only when the index was empty before this call. -/
def extendIndex (parts : List (Int × String)) (minimum : Option Int)
    (mn mx : Int) : List (Int × String) × Option Int :=
  (seriesSet parts mx (partName mn mx),
   if parts.length = 0 then some mn else minimum)

/-- How a call to `extend` can fail in the model. -/
inductive ExtendError where
  /-- `ValueError: zero-size array to reduction operation minimum` from
  `index.min()` on an empty index (core.py line 137). -/
  | emptyReduction
  /-- An explicit non-emptiness validation failure.  The spec claims
  `extend` performs such a validation; the code never produces it.  The
  constructor exists only so the spec's claimed behaviour is statable. -/
  | validation
  deriving DecidableEq, Repr

/-- `extend(df)` (core.py lines 134-159) restricted to its effect on the
partition index and global minimum, driven by the batch's key column
`index`.  `index.min()` / `index.max()` on an empty numpy array raise
`ValueError` before anything is written; there is no validation step. -/
def extend (parts : List (Int × String)) (minimum : Option Int)
    (index : List Int) : Except ExtendError (List (Int × String) × Option Int) :=
  match index.min?, index.max? with
  | some mn, some mx => .ok (extendIndex parts minimum mn mx)
  | _, _ => .error .emptyReduction

/-! ## Per-column dictionary logs (`append_categories` / `load_categories`)

The `meta/categories` directory is modelled as an association list from
column name to the sequence of dictionary entries its log file holds (a
file's `'-sep-'`-separated pickled frames, abstracted to the values they
encode; a key absent from the list is a missing file). -/

/-- The modelled `meta/categories` directory. -/
abbrev CatFS := List (String × List PyVal)

/-- `open(fn, 'a')` followed by writing entries: appends to the existing
file, creating it first when missing. -/
def fsAppend (fs : CatFS) (col : String) (entries : List PyVal) : CatFS :=
  if (aget fs col).isSome then
    fs.map (fun q => if q.1 = col then (q.1, q.2 ++ entries) else q)
  else fs ++ [(col, entries)]

/-- `append_categories(new)` (core.py lines 115-121): for each column in
`new`, append its entries to that column's log — but only when the entry
list is non-empty (`if cat:`), so a column with no new values never gets
a file. -/
def append_categories (fs : CatFS) (new : Table) : CatFS :=
  new.foldl (fun acc p => if p.2.isEmpty then acc else fsAppend acc p.1 p.2) fs

/-- `load_categories()` (core.py lines 123-132): for each schema column,
read and split that column's log if the file exists; a column whose file
is missing is silently left out of `self.categories`. -/
def load_categories (columns : List String) (fs : CatFS) : Table :=
  columns.filterMap (fun col => (aget fs col).map (fun l => (col, l)))

/-! ## Metadata persistence (`flush_meta` / `load_meta`) -/

/-- The attribute namespace of a `Castra` instance, restricted to the
schema attributes `flush_meta` and `load_meta` touch.  `none` models an
attribute that is not set (reading it raises `AttributeError`).  Note
the instance carries *both* a `dtypes` and a `dtype` slot: `flush_meta`
reads `dtypes`, while `load_meta` assigns `dtype`. -/
structure PyAttrs where
  columns : Option (List String)
  dtypes : Option (List (String × String))
  dtype : Option (List (String × String))
  index_dtype : Option String
  deriving DecidableEq, Repr

/-- The three schema artifact files under `meta/`, each holding the
pickled value written to it (`none` = file missing). -/
structure MetaFiles where
  columns : Option (List String)
  dtypes : Option (List (String × String))
  index_dtype : Option String
  deriving DecidableEq, Repr

/-- `flush_meta()` (core.py lines 98-101): writes
`dumps(getattr(self, name))` for `name` in
`['columns', 'dtypes', 'index_dtype']`; raises `AttributeError`
(modelled `none`) if an attribute is unset. -/
def flush_meta (a : PyAttrs) : Option MetaFiles :=
  match a.columns, a.dtypes, a.index_dtype with
  | some c, some d, some i => some ⟨some c, some d, some i⟩
  | _, _, _ => none

/-- `load_meta()` (core.py lines 91-96): reads the three artifact files
and then executes `self.columns, self.dtype, self.index_dtype = meta` —
the loaded dtypes map is assigned to the attribute `dtype`, and the
attribute `dtypes` is left untouched. -/
def load_meta (f : MetaFiles) (a : PyAttrs) : Option PyAttrs :=
  match f.columns, f.dtypes, f.index_dtype with
  | some c, some d, some i =>
      some { a with columns := some c, dtype := some d, index_dtype := some i }
  | _, _, _ => none

/-! ## Column pack/unpack (`pack_file` / `unpack_file`)

The external codecs (bloscpack, blosc, msgpack) are out of the
repository; per the spec they are lossless transport for the values they
are given.  A column file is therefore modelled by which container
format it is in plus the array values it transports. -/

/-- A numpy dtype, at the granularity `blosc_args` dispatches on. -/
inductive Dtype where
  | int
  | datetime
  | float
  | object
  deriving DecidableEq, Repr

/-- A numpy array: its dtype, its element size in bytes, its values. -/
structure NpArray where
  dtype : Dtype
  itemsize : Nat
  values : List PyVal
  deriving DecidableEq, Repr

/-- The compression parameters `blosc_args` chooses. -/
structure BloscArgs where
  typesize : Nat
  clevel : Nat
  shuffle : Bool
  deriving DecidableEq, Repr

/-- `blosc_args(dt)` (core.py lines 22-29): ints and datetimes compress
at level 3 with byte-shuffling, floats at level 1 without shuffling,
anything else gets no numeric-path arguments. -/
def blosc_args (dt : Dtype) (itemsize : Nat) : Option BloscArgs :=
  match dt with
  | .int => some ⟨itemsize, 3, true⟩
  | .datetime => some ⟨itemsize, 3, true⟩
  | .float => some ⟨itemsize, 1, false⟩
  | .object => none

/-- The on-disk content of a column file: either a bloscpack container
(written with the recorded blosc arguments) or a raw
`blosc.compress(msgpack.packb(x.tolist()), level)` blob. -/
inductive FileContent where
  | bloscpackFile : Option BloscArgs → List PyVal → FileContent
  | rawBlob : Nat → List PyVal → FileContent
  deriving DecidableEq, Repr

/-- `pack_file(x, fn)` (core.py lines 245-261): non-object dtypes go
through `bloscpack.pack_ndarray_file` with `blosc_args(x.dtype)`; object
dtypes are serialized with msgpack and compressed with blosc at level 1. -/
def pack_file (x : NpArray) : FileContent :=
  if x.dtype ≠ .object then .bloscpackFile (blosc_args x.dtype x.itemsize) x.values
  else .rawBlob 1 x.values

/-- `bloscpack.unpack_ndarray_file(fn)`: succeeds exactly on bloscpack
containers; on any other file the magic check fails and it raises
`ValueError` (modelled `.error`). -/
def bloscpackUnpack : FileContent → Except Unit (List PyVal)
  | .bloscpackFile _ d => .ok d
  | .rawBlob _ _ => .error ()

/-- `np.array(msgpack.unpackb(blosc.decompress(bytes)))`: succeeds
exactly on raw blosc blobs; a bloscpack container is not a blosc frame,
so `blosc.decompress` raises (modelled `.error`). -/
def genericUnpack : FileContent → Except Unit (List PyVal)
  | .rawBlob _ d => .ok d
  | .bloscpackFile _ _ => .error ()

/-- `unpack_file(fn)` (core.py lines 264-280): first attempt the
bloscpack decoder; on its `ValueError` fall back to
decompress-and-deserialize. -/
def unpack_file (f : FileContent) : Except Unit (List PyVal) :=
  match bloscpackUnpack f with
  | .ok d => .ok d
  | .error _ => genericUnpack f

/-! ## Helper lemmas -/

theorem aget_map_set {κ α : Type} [DecidableEq κ] (k : κ) (v : α) :
    ∀ (parts : List (κ × α)), (∃ p ∈ parts, p.1 = k) →
      aget (parts.map (fun p => if p.1 = k then (k, v) else p)) k = some v := by
  intro parts
  induction parts with
  | nil => rintro ⟨p, hp, -⟩; cases hp
  | cons q qs ih =>
    rintro ⟨p, hp, hpk⟩
    by_cases hq : q.1 = k
    · simp [aget_cons, hq]
    · have hne : (if q.1 = k then (k, v) else q).1 ≠ k := by simp [hq]
      simp only [List.map_cons, aget_cons, if_neg hne]
      rcases List.mem_cons.1 hp with rfl | hmem
      · exact absurd hpk hq
      · exact ih ⟨p, hmem, hpk⟩

@[simp] theorem omap_nil {α β : Type} (f : α → Option β) : omap f [] = some [] := rfl

theorem omap_cons_some {α β : Type} {f : α → Option β} {x : α} {xs : List α}
    {r : List β} (h : omap f (x :: xs) = some r) :
    ∃ y ys, f x = some y ∧ omap f xs = some ys ∧ r = y :: ys := by
  unfold omap at h
  cases hfx : f x with
  | none => rw [hfx] at h; cases h
  | some y =>
    cases hxs : omap f xs with
    | none => rw [hfx, hxs] at h; cases h
    | some ys =>
      rw [hfx, hxs] at h
      injection h with h2
      exact ⟨y, ys, rfl, rfl, h2.symm⟩

theorem omap_cons_eq {α β : Type} {f : α → Option β} {x : α} {xs : List α}
    {y : β} {ys : List β} (hy : f x = some y) (hys : omap f xs = some ys) :
    omap f (x :: xs) = some (y :: ys) := by
  unfold omap
  rw [hy, hys]

theorem omap_isSome_of_mem {α β : Type} {f : α → Option β} :
    ∀ {l : List α} {r : List β}, omap f l = some r → ∀ p ∈ l, (f p).isSome := by
  intro l
  induction l with
  | nil => intro r _ p hp; cases hp
  | cons x xs ih =>
    intro r h p hp
    obtain ⟨y, ys, hy, hys, -⟩ := omap_cons_some h
    rcases List.mem_cons.1 hp with rfl | hp2
    · simp [hy]
    · exact ih hys p hp2

theorem aget_mem {κ α : Type} [DecidableEq κ] :
    ∀ {m : List (κ × α)} {k : κ} {v : α}, aget m k = some v → (k, v) ∈ m := by
  intro m
  induction m with
  | nil => intro k v h; cases h
  | cons p ps ih =>
    intro k v h
    rw [aget_cons] at h
    split at h
    · next heq =>
      injection h with h2
      subst heq h2
      simp
    · exact List.mem_cons_of_mem _ (ih h)

theorem aget_of_nodup {κ α : Type} [DecidableEq κ] :
    ∀ (m : List (κ × α)), (m.map Prod.fst).Nodup → ∀ p ∈ m, aget m p.1 = some p.2 := by
  intro m
  induction m with
  | nil => intro _ p hp; cases hp
  | cons q qs ih =>
    intro hnd p hp
    rw [List.map_cons, List.nodup_cons] at hnd
    obtain ⟨hq, hnd2⟩ := hnd
    rcases List.mem_cons.1 hp with rfl | hp2
    · rw [aget_cons, if_pos rfl]
    · rw [aget_cons, if_neg, ih hnd2 p hp2]
      intro heq
      exact hq (by rw [heq]; exact List.mem_map_of_mem Prod.fst hp2)

theorem pvInsert_perm (x : PyVal) : ∀ (l : List PyVal), List.Perm (pvInsert x l) (x :: l) := by
  intro l
  induction l with
  | nil => rfl
  | cons y ys ih =>
    unfold pvInsert
    split
    · rfl
    · exact (List.Perm.cons y ih).trans (List.Perm.swap x y ys)

theorem pvSort_perm : ∀ (l : List PyVal), List.Perm (pvSort l) l := by
  intro l
  induction l with
  | nil => rfl
  | cons x xs ih => exact (pvInsert_perm x (pvSort xs)).trans (List.Perm.cons x ih)

theorem mem_pySetDiff {v : PyVal} {xs cat : List PyVal} :
    v ∈ pySetDiff xs cat ↔ v ∈ xs ∧ v ∉ cat := by
  unfold pySetDiff
  rw [(pvSort_perm _).mem_iff, List.mem_dedup, List.mem_filter]
  simp

theorem nodup_pySetDiff (xs cat : List PyVal) : (pySetDiff xs cat).Nodup :=
  ((pvSort_perm _).nodup_iff).2 (List.nodup_dedup _)

theorem mem_newCat {v : PyVal} {xs cat : List PyVal} (h : v ∈ xs) :
    v ∈ cat ++ pySetDiff xs cat := by
  by_cases hc : v ∈ cat
  · exact List.mem_append_left _ hc
  · exact List.mem_append_right _ (mem_pySetDiff.2 ⟨h, hc⟩)

theorem pyCatCodes_nodup {v cats : List PyVal} {cs : List PyVal}
    (h : pyCatCodes v cats = some cs) : cats.Nodup := by
  unfold pyCatCodes at h
  by_cases hnd : cats.Nodup
  · exact hnd
  · rw [if_neg hnd] at h; cases h

theorem pyCatCodes_eq {v cats : List PyVal} {cs : List PyVal}
    (h : pyCatCodes v cats = some cs) :
    cs = v.map (fun x => PyVal.int (if x ∈ cats then (cats.indexOf x : Int) else -1)) := by
  unfold pyCatCodes at h
  rw [if_pos (by
    by_cases hnd : cats.Nodup
    · exact hnd
    · rw [if_neg hnd] at h; cases h)] at h
  injection h with h2
  exact h2.symm

theorem get?_indexOf {α : Type} [DecidableEq α] {l : List α} {v : α} (h : v ∈ l) :
    l.get? (l.indexOf v) = some v := by
  have hlt := List.indexOf_lt_length.2 h
  rw [List.get?_eq_get hlt, List.indexOf_get hlt]

theorem pyFromCodes_pyCatCodes (xs cats : List PyVal) (codes : List PyVal)
    (hmem : ∀ v ∈ xs, v ∈ cats) (henc : pyCatCodes xs cats = some codes) :
    pyFromCodes codes cats = some xs := by
  have hnd := pyCatCodes_nodup henc
  have hcs := pyCatCodes_eq henc
  subst hcs
  unfold pyFromCodes
  rw [if_pos hnd]
  clear henc
  induction xs with
  | nil => rfl
  | cons x xs ih =>
    rw [List.map_cons]
    refine omap_cons_eq ?_ (ih (fun v hv => hmem v (List.mem_cons_of_mem _ hv)))
    have hx : x ∈ cats := hmem x (List.mem_cons_self x xs)
    rw [if_pos hx]
    dsimp only
    have h1 : ((cats.indexOf x : Int)) ≠ -1 := by
      have h0 : (0 : Int) ≤ (cats.indexOf x : Int) := Int.ofNat_nonneg _
      omega
    rw [if_neg h1]
    have hlt := List.indexOf_lt_length.2 hx
    have h2 : (0 : Int) ≤ (cats.indexOf x : Int) ∧
        (cats.indexOf x : Int) < (cats.length : Int) :=
      ⟨Int.ofNat_nonneg _, by exact_mod_cast hlt⟩
    rw [if_pos h2]
    have h3 : ((cats.indexOf x : Int)).toNat = cats.indexOf x := Int.toNat_ofNat _
    rw [h3]
    exact get?_indexOf hx

theorem aget_omap {β : Type} (g : List PyVal → List PyVal → β) (df : Table) :
    ∀ (cats : Table) (r : List (String × β)),
      omap (fun p => (aget df p.1).map (fun xs => (p.1, g p.2 xs))) cats = some r →
      ∀ col, aget r col
        = (aget cats col).bind (fun cat => (aget df col).map (fun xs => g cat xs)) := by
  intro cats
  induction cats with
  | nil =>
    intro r h col
    injection h with h2
    subst h2
    rfl
  | cons q qs ih =>
    intro r h col
    obtain ⟨y, ys, hy, hys, rfl⟩ := omap_cons_some h
    obtain ⟨xs, hxs, rfl⟩ := Option.map_eq_some'.1 hy
    by_cases hc : q.1 = col
    · subst hc
      rw [aget_cons, if_pos rfl, aget_cons, if_pos rfl]
      simp [hxs]
    · rw [aget_cons, if_neg hc, aget_cons, if_neg hc]
      exact ih ys hys col

theorem aget_decatNewDf (cats : Table) :
    ∀ (df cd : Table), decatNewDf cats df = some cd →
      ∀ col, aget cd col = (aget df col).bind (fun xs =>
        match aget cats col with
        | some cat => pyCatCodes xs (cat ++ pySetDiff xs cat)
        | none => some xs) := by
  intro df
  induction df with
  | nil =>
    intro cd h col
    unfold decatNewDf at h
    injection h with h2
    subst h2
    rfl
  | cons p ps ih =>
    intro cd h col
    unfold decatNewDf at h ih
    obtain ⟨y, ys, hy, hys, rfl⟩ := omap_cons_some h
    cases hcat : aget cats p.1 with
    | none =>
      rw [hcat] at hy
      injection hy with h2
      subst h2
      by_cases hc : p.1 = col
      · subst hc
        rw [aget_cons, if_pos rfl, aget_cons, if_pos rfl]
        simp [hcat]
      · rw [aget_cons, if_neg hc, aget_cons, if_neg hc]
        exact ih ys hys col
    | some cat =>
      rw [hcat] at hy
      obtain ⟨cs, hcs, rfl⟩ := Option.map_eq_some'.1 hy
      by_cases hc : p.1 = col
      · subst hc
        rw [aget_cons, if_pos rfl, aget_cons, if_pos rfl]
        simp [hcat, hcs]
      · rw [aget_cons, if_neg hc, aget_cons, if_neg hc]
        exact ih ys hys col

theorem _decategorize_eq_some {cats df e nc cd : Table}
    (h : _decategorize cats df = some (e, nc, cd)) :
    decatExtra cats df = some e ∧ decatNewCats cats df = some nc ∧
      decatNewDf cats df = some cd := by
  unfold _decategorize at h
  cases he : decatExtra cats df with
  | none => rw [he] at h; cases h
  | some e0 =>
    cases hnc : decatNewCats cats df with
    | none => rw [he, hnc] at h; cases h
    | some nc0 =>
      cases hcd : decatNewDf cats df with
      | none => rw [he, hnc, hcd] at h; cases h
      | some cd0 =>
        rw [he, hnc, hcd] at h
        injection h with h2
        simp only [Prod.mk.injEq] at h2
        obtain ⟨rfl, rfl, rfl⟩ := h2
        exact ⟨rfl, rfl, rfl⟩

/-- The per-suffix core of the categorical round trip: decoding the
coded suffix under the updated dictionaries reproduces the suffix. -/
theorem categorize_section (cats df nc : Table)
    (hncA : ∀ col, aget nc col = (aget cats col).bind
      (fun cat => (aget df col).map (fun xs => cat ++ pySetDiff xs cat))) :
    ∀ (sub cd : Table), (∀ p ∈ sub, aget df p.1 = some p.2) →
      decatNewDf cats sub = some cd → _categorize nc cd = some sub := by
  intro sub
  induction sub with
  | nil =>
    intro cd hs h
    unfold decatNewDf at h
    injection h with h2
    subst h2
    rfl
  | cons p rest ih =>
    intro cd hs h
    unfold decatNewDf at h
    obtain ⟨y, ys, hy, hys, rfl⟩ := omap_cons_some h
    have hdf : aget df p.1 = some p.2 := hs p (List.mem_cons_self p rest)
    have htail := ih ys (fun q hq => hs q (List.mem_cons_of_mem _ hq)) hys
    unfold _categorize at htail ⊢
    cases hcat : aget cats p.1 with
    | none =>
      rw [hcat] at hy
      injection hy with h2
      subst h2
      refine omap_cons_eq ?_ htail
      have hnc : aget nc p.1 = none := by rw [hncA p.1, hcat]; rfl
      simp only [hnc]
    | some cat =>
      rw [hcat] at hy
      obtain ⟨cs, hcs, rfl⟩ := Option.map_eq_some'.1 hy
      refine omap_cons_eq ?_ htail
      have hnc : aget nc p.1 = some (cat ++ pySetDiff p.2 cat) := by
        rw [hncA p.1, hcat]
        simp [hdf]
      have hdec := pyFromCodes_pyCatCodes p.2 (cat ++ pySetDiff p.2 cat) cs
        (fun v hv => mem_newCat hv) hcs
      simp only [hnc, hdec, Option.map_some']

/-! ## C1: the categorical round trip -/

/-- **C1** (confirmed): for any prior dictionary state and any table —
including one introducing values absent from every dictionary — decoding
the coded table produced by `_decategorize` with the updated categories
it returned reproduces the original table exactly (`_decategorize`
succeeding, i.e. the Python call returning, and the table having
distinct column names, as every DataFrame does, are the hypotheses). -/
theorem C1_categorize_decategorize_roundtrip (cats df e nc cd : Table)
    (h : _decategorize cats df = some (e, nc, cd))
    (hdf : (df.map Prod.fst).Nodup) :
    _categorize nc cd = some df := by
  obtain ⟨-, hnc, hcd⟩ := _decategorize_eq_some h
  exact categorize_section cats df nc
    (aget_omap (fun cat xs => cat ++ pySetDiff xs cat) df cats nc hnc)
    df cd (aget_of_nodup df hdf) hcd

/-- Witness for `C1_categorize_decategorize_roundtrip` on the docstring
example: categories `{y: [A, B]}`, table `{x: [1,2,3], y: [C, B, B]}`;
the batch introduces the new value `C`. -/
theorem C1_categorize_decategorize_roundtrip_witness :
    _categorize [("y", [PyVal.str "A", PyVal.str "B", PyVal.str "C"])]
        [("x", [PyVal.int 1, PyVal.int 2, PyVal.int 3]),
         ("y", [PyVal.int 2, PyVal.int 1, PyVal.int 1])]
      = some [("x", [PyVal.int 1, PyVal.int 2, PyVal.int 3]),
              ("y", [PyVal.str "C", PyVal.str "B", PyVal.str "B"])] :=
  C1_categorize_decategorize_roundtrip
    [("y", [PyVal.str "A", PyVal.str "B"])]
    [("x", [PyVal.int 1, PyVal.int 2, PyVal.int 3]),
     ("y", [PyVal.str "C", PyVal.str "B", PyVal.str "B"])]
    [("y", [PyVal.str "C"])]
    [("y", [PyVal.str "A", PyVal.str "B", PyVal.str "C"])]
    [("x", [PyVal.int 1, PyVal.int 2, PyVal.int 3]),
     ("y", [PyVal.int 2, PyVal.int 1, PyVal.int 1])]
    (by decide) (by decide)

/-! ## Order and binary-search lemmas for `select_partitions` -/

theorem charsLtB_irrefl : ∀ (l : List Char), charsLtB l l = false := by
  intro l
  induction l with
  | nil => rfl
  | cons a as ih =>
    unfold charsLtB
    simp [ih]

theorem charsLtB_trans : ∀ (a b c : List Char),
    charsLtB a b = true → charsLtB b c = true → charsLtB a c = true := by
  intro a
  induction a with
  | nil =>
    intro b c hab hbc
    cases b with
    | nil => cases hab
    | cons y ys =>
      cases c with
      | nil => cases hbc
      | cons z zs => rfl
  | cons x xs ih =>
    intro b c hab hbc
    cases b with
    | nil => cases hab
    | cons y ys =>
      cases c with
      | nil => cases hbc
      | cons z zs =>
        unfold charsLtB at hab hbc ⊢
        by_cases h1 : x.toNat < y.toNat
        · by_cases h2 : y.toNat < z.toNat
          · rw [if_pos (by omega)]
          · rw [if_neg h2] at hbc
            by_cases h2b : z.toNat < y.toNat
            · rw [if_pos h2b] at hbc; cases hbc
            · rw [if_pos (by omega)]
        · rw [if_neg h1] at hab
          by_cases h1b : y.toNat < x.toNat
          · rw [if_pos h1b] at hab; cases hab
          · rw [if_neg h1b] at hab
            by_cases h2 : y.toNat < z.toNat
            · rw [if_pos (by omega)]
            · rw [if_neg h2] at hbc
              by_cases h2b : z.toNat < y.toNat
              · rw [if_pos h2b] at hbc; cases hbc
              · rw [if_neg h2b] at hbc
                rw [if_neg (by omega), if_neg (by omega)]
                exact ih ys zs hab hbc

theorem charsLtB_asymm : ∀ (a b : List Char),
    charsLtB a b = true → charsLtB b a = false := by
  intro a
  induction a with
  | nil =>
    intro b hab
    cases b with
    | nil => cases hab
    | cons y ys => rfl
  | cons x xs ih =>
    intro b hab
    cases b with
    | nil => cases hab
    | cons y ys =>
      unfold charsLtB at hab ⊢
      by_cases h1 : x.toNat < y.toNat
      · rw [if_neg (by omega), if_pos h1]
      · rw [if_neg h1] at hab
        by_cases h1b : y.toNat < x.toNat
        · rw [if_pos h1b] at hab; cases hab
        · rw [if_neg h1b] at hab
          rw [if_neg (by omega), if_neg (by omega)]
          exact ih ys hab

theorem strLtB_irrefl (a : String) : strLtB a a = false := charsLtB_irrefl a.data

theorem strLtB_trans {a b c : String} (h1 : strLtB a b = true)
    (h2 : strLtB b c = true) : strLtB a c = true :=
  charsLtB_trans a.data b.data c.data h1 h2

theorem strLtB_asymm {a b : String} (h : strLtB a b = true) : strLtB b a = false :=
  charsLtB_asymm a.data b.data h

theorem strLtB_ne {a b : String} (h : strLtB a b = true) : a ≠ b := by
  intro heq
  rw [heq, strLtB_irrefl b] at h
  cases h

theorem getD_eq_get {α : Type} (l : List α) (d : α) {i : Nat} (h : i < l.length) :
    l.getD i d = l.get ⟨i, h⟩ := by
  rw [List.getD_eq_get?, List.get?_eq_get h]
  rfl

theorem pairwise_strLtB_getD {ns : List String}
    (hs : ns.Pairwise (fun a b => strLtB a b = true))
    {i j : Nat} (hij : i < j) (hj : j < ns.length) :
    strLtB (ns.getD i "") (ns.getD j "") = true := by
  have hi : i < ns.length := lt_trans hij hj
  rw [getD_eq_get ns "" hi, getD_eq_get ns "" hj]
  exact List.pairwise_iff_get.1 hs ⟨i, hi⟩ ⟨j, hj⟩ hij

theorem bisectGo_eq (a : List String) (v : String) :
    ∀ (fuel lo hi k : Nat), hi - lo ≤ fuel → lo ≤ k → k ≤ hi → hi ≤ a.length →
      (∀ i, i < k → strLtB (a.getD i "") v = true) →
      (∀ i, k ≤ i → i < hi → strLtB (a.getD i "") v = false) →
      bisectGo a v fuel lo hi = k := by
  intro fuel
  induction fuel with
  | zero =>
    intro lo hi k hf h1 h2 _ _ _
    show lo = k
    omega
  | succ n ih =>
    intro lo hi k hf h1 h2 h3 hlt hge
    unfold bisectGo
    split
    · next hlohi =>
      dsimp only
      by_cases hm : strLtB (a.getD ((lo + hi) / 2) "") v = true
      · rw [if_pos hm]
        have hmk : (lo + hi) / 2 < k := by
          by_contra hk
          push_neg at hk
          have hc := hge ((lo + hi) / 2) hk (by omega)
          rw [hc] at hm
          cases hm
        exact ih ((lo + hi) / 2 + 1) hi k (by omega) (by omega) h2 h3 hlt hge
      · rw [if_neg hm]
        have hkm : k ≤ (lo + hi) / 2 := by
          by_contra hk
          push_neg at hk
          have hc := hlt ((lo + hi) / 2) hk
          exact hm hc
        exact ih lo ((lo + hi) / 2) k (by omega) h1 hkm (by omega) hlt
          (fun i hik hi2 => hge i hik (by omega))
    · next hlohi =>
      omega

theorem bisectLeft_eq (ns : List String)
    (hs : ns.Pairwise (fun a b => strLtB a b = true))
    (k : Nat) (hk : k < ns.length) : bisectLeft ns (ns.getD k "") = k := by
  unfold bisectLeft
  refine bisectGo_eq ns _ ns.length 0 ns.length k (by omega) (by omega)
    (le_of_lt hk) le_rfl ?_ ?_
  · intro i hik
    exact pairwise_strLtB_getD hs hik hk
  · intro i hki hilen
    rcases Nat.eq_or_lt_of_le hki with rfl | hlt2
    · exact strLtB_irrefl _
    · exact strLtB_asymm (pairwise_strLtB_getD hs hlt2 hilen)

/-! ## Structure lemmas for a valid partition list -/

theorem validParts_pairwise (ps : List Part) (hv : validParts ps) :
    ps.Pairwise (fun p q => p.maxK < q.minK) := hv.2

theorem validParts_pairwise_maxK (ps : List Part) (hv : validParts ps) :
    ps.Pairwise (fun p q => p.maxK < q.maxK) :=
  List.Pairwise.imp_of_mem
    (fun {_ b} _ hb h => lt_of_lt_of_le h (hv.1 b hb))
    (validParts_pairwise ps hv)

/-- A list whose `maxK`s strictly increase splits around the window
filter: a prefix entirely below `start`, the filtered entries, and a
suffix entirely above `stop`. -/
theorem window_decomp (start stop : Int) :
    ∀ (ps : List Part), ps.Pairwise (fun p q => p.maxK < q.maxK) →
      ∃ P1 P3,
        ps = P1 ++ ps.filter (fun p => decide (start ≤ p.maxK ∧ p.maxK ≤ stop)) ++ P3 ∧
        (∀ p ∈ P1, p.maxK < start) ∧ (∀ p ∈ P3, stop < p.maxK) := by
  intro ps
  induction ps with
  | nil => intro _; exact ⟨[], [], rfl, by simp, by simp⟩
  | cons p t ih =>
    intro hp
    rw [List.pairwise_cons] at hp
    obtain ⟨hpt, hpt2⟩ := hp
    obtain ⟨P1, P3, hsplit, h1, h3⟩ := ih hpt2
    by_cases hpred : start ≤ p.maxK ∧ p.maxK ≤ stop
    · have hP1nil : P1 = [] := by
        cases P1 with
        | nil => rfl
        | cons q Q =>
          exfalso
          have hq : q ∈ t := by
            rw [hsplit]
            exact List.mem_append_left _ (List.mem_append_left _ (List.mem_cons_self q Q))
          have ha := hpt q hq
          have hb := h1 q (List.mem_cons_self q Q)
          omega
      subst hP1nil
      refine ⟨[], P3, ?_, by simp, h3⟩
      rw [List.filter_cons_of_pos (by simpa using hpred)]
      simpa using hsplit
    · by_cases hlo : p.maxK < start
      · refine ⟨p :: P1, P3, ?_, ?_, h3⟩
        · rw [List.filter_cons_of_neg (by simpa using hpred)]
          simpa using hsplit
        · intro q hq
          rcases List.mem_cons.1 hq with rfl | hq2
          · exact hlo
          · exact h1 q hq2
      · have hstop : stop < p.maxK := by
          push_neg at hpred
          exact hpred (by omega)
        have hallt : ∀ q ∈ t, stop < q.maxK := fun q hq => lt_trans hstop (hpt q hq)
        have hfilt : t.filter (fun p => decide (start ≤ p.maxK ∧ p.maxK ≤ stop)) = [] := by
          rw [List.filter_eq_nil_iff]
          intro q hq
          have := hallt q hq
          simp only [decide_eq_true_eq, not_and]
          omega
        refine ⟨[], p :: t, ?_, by simp, ?_⟩
        · rw [List.filter_cons_of_neg (by simp; omega), hfilt]
          rfl
        · intro q hq
          rcases List.mem_cons.1 hq with rfl | hq2
          · exact hstop
          · exact hallt q hq2

theorem filter_map_comm {α β : Type} (f : α → β) (q : β → Bool) :
    ∀ (l : List α), (l.map f).filter q = (l.filter (fun a => q (f a))).map f := by
  intro l
  induction l with
  | nil => rfl
  | cons x xs ih =>
    simp only [List.map_cons, List.filter_cons]
    cases hq : q (f x)
    · simpa [hq] using ih
    · simp [hq, ih]

theorem pIndex_snd (ps : List Part) : (pIndex ps).map Prod.snd = ps.map Part.name := by
  unfold pIndex
  rw [List.map_map]
  rfl

theorem pIndex_fst (ps : List Part) : (pIndex ps).map Prod.fst = ps.map Part.maxK := by
  unfold pIndex
  rw [List.map_map]
  rfl

theorem pIndex_length (ps : List Part) : (pIndex ps).length = ps.length := by
  unfold pIndex
  rw [List.length_map]

theorem locSlice_pIndex (ps : List Part) (start stop : Int) :
    locSlice (pIndex ps) start stop
      = (ps.filter (fun p => decide (start ≤ p.maxK ∧ p.maxK ≤ stop))).map Part.name := by
  unfold locSlice pIndex
  rw [filter_map_comm, List.map_map]
  rfl

theorem get?_last_middle {α : Type} (P1 M2 P3 : List α) (h : M2 ≠ []) :
    (P1 ++ M2 ++ P3).get? (P1.length + (M2.length - 1)) = some (M2.getLast h) := by
  rw [List.append_assoc, List.get?_append_right (by omega), Nat.add_sub_cancel_left]
  have hlen : M2.length - 1 < M2.length := by
    have := List.length_pos.2 h
    omega
  rw [List.get?_append hlen, List.get?_eq_get hlen, List.getLast_eq_get M2 h]

theorem get?_head_after {α : Type} (P1 M2 P3 : List α) (h3 : P3 ≠ []) :
    (P1 ++ M2 ++ P3).get? (P1.length + M2.length) = some (P3.head h3) := by
  rw [List.append_assoc, List.get?_append_right (by omega), Nat.add_sub_cancel_left,
    List.get?_append_right le_rfl, Nat.sub_self, List.get?_zero, List.head?_eq_head]

theorem get?_last_middle_map {α β : Type} (f : α → β) (P1 M2 P3 : List α) (h : M2 ≠ []) :
    ((P1 ++ M2 ++ P3).map f).get? (P1.length + (M2.length - 1)) = some (f (M2.getLast h)) := by
  rw [List.get?_map, get?_last_middle P1 M2 P3 h]
  rfl

theorem get?_head_after_map {α β : Type} (f : α → β) (P1 M2 P3 : List α) (h3 : P3 ≠ []) :
    ((P1 ++ M2 ++ P3).map f).get? (P1.length + M2.length) = some (f (P3.head h3)) := by
  rw [List.get?_map, get?_head_after P1 M2 P3 h3]
  rfl

theorem sublist_of_mid {α : Type} {l pre names suf : List α}
    (h : l = pre ++ names ++ suf) : names.Sublist l := by
  subst h
  exact List.Sublist.trans (List.sublist_append_right pre names)
    (List.sublist_append_left (pre ++ names) suf)

/-! ## C2: what `select_partitions` returns -/

/-- **C2** (corrected): for a partition index built from `extend` calls
with disjoint, increasing key ranges whose names are lexicographically
increasing, and a query `[start, stop]` containing at least one
partition's `max_key`, `select_partitions` returns (without raising) a
contiguous run of partition names in increasing key order with no
duplicates *containing* every partition whose key range intersects
`[start, stop]`; and every returned partition except possibly the last
intersects `[start, stop]` (the last may lie wholly beyond `stop` when
`stop` falls in a gap between partitions). -/
theorem C2_select_partitions_covering (ps : List Part) (start stop : Int)
    (hv : validParts ps)
    (hn : (ps.map Part.name).Pairwise (fun a b => strLtB a b = true))
    (hm : ∃ p ∈ ps, start ≤ p.maxK ∧ p.maxK ≤ stop) :
    ∃ names, select_partitions (pIndex ps) start stop = some names ∧
      (∃ pre suf, ps.map Part.name = pre ++ names ++ suf) ∧
      names.Nodup ∧
      (∀ p ∈ ps, intersects p start stop → p.name ∈ names) ∧
      (∀ n ∈ names.dropLast, ∃ p ∈ ps, p.name = n ∧ intersects p start stop) := by
  obtain ⟨P1, P3, hsplit, h1, h3⟩ :=
    window_decomp start stop ps (validParts_pairwise_maxK ps hv)
  generalize hgen : ps.filter (fun p => decide (start ≤ p.maxK ∧ p.maxK ≤ stop)) = M2
    at hsplit
  have hM2ne : M2 ≠ [] := by
    obtain ⟨p, hp, hc⟩ := hm
    intro hnil
    have hmem : p ∈ M2 := by
      rw [← hgen]
      exact List.mem_filter.2 ⟨hp, by simpa using hc⟩
    rw [hnil] at hmem
    cases hmem
  have hM2mem : ∀ p ∈ M2, p ∈ ps ∧ start ≤ p.maxK ∧ p.maxK ≤ stop := by
    intro p hp
    rw [← hgen] at hp
    have h := List.mem_filter.1 hp
    exact ⟨h.1, by simpa using h.2⟩
  have hM2pos : 0 < M2.length := List.length_pos.2 hM2ne
  have hlenps : ps.length = P1.length + M2.length + P3.length := by
    rw [hsplit, List.length_append, List.length_append]
  have hminmax : ∀ p ∈ ps, p.minK ≤ p.maxK := hv.1
  have hpw := validParts_pairwise ps hv
  rw [hsplit, List.pairwise_append] at hpw
  obtain ⟨hpw12, hpw3, hcross⟩ := hpw
  have hloc : locSlice (pIndex ps) start stop = M2.map Part.name := by
    rw [locSlice_pIndex, hgen]
  have hlast0 : (M2.map Part.name).getLast? = some ((M2.getLast hM2ne).name) := by
    rw [List.getLast?_map, List.getLast?_eq_getLast M2 hM2ne]
    rfl
  have hgetb : (ps.map Part.name).get? (P1.length + (M2.length - 1))
      = some ((M2.getLast hM2ne).name) := by
    rw [hsplit]
    exact get?_last_middle_map Part.name P1 M2 P3 hM2ne
  have hgetDb : (ps.map Part.name).getD (P1.length + (M2.length - 1)) ""
      = (M2.getLast hM2ne).name := by
    rw [List.getD_eq_get?, hgetb]
    rfl
  have hblen : P1.length + (M2.length - 1) < ps.length := by omega
  have hbisect : bisectLeft (ps.map Part.name) ((M2.getLast hM2ne).name)
      = P1.length + (M2.length - 1) := by
    have h := bisectLeft_eq (ps.map Part.name) hn (P1.length + (M2.length - 1))
      (by rw [List.length_map]; exact hblen)
    rw [hgetDb] at h
    exact h
  have hkey : ((pIndex ps).map Prod.fst).get? (P1.length + (M2.length - 1))
      = some ((M2.getLast hM2ne).maxK) := by
    rw [pIndex_fst, hsplit]
    exact get?_last_middle_map Part.maxK P1 M2 P3 hM2ne
  have hsel : select_partitions (pIndex ps) start stop
      = if (M2.getLast hM2ne).maxK < coerce_index stop ∧
            (pIndex ps).length > P1.length + (M2.length - 1) + 1 then
          some (M2.map Part.name ++
            [(ps.map Part.name).getD (P1.length + (M2.length - 1) + 1) ""])
        else some (M2.map Part.name) := by
    unfold select_partitions
    simp only [hloc]
    rw [hlast0]
    dsimp only
    rw [pIndex_snd, hbisect, hkey]
  have hnodup : (ps.map Part.name).Nodup :=
    List.Pairwise.imp (fun h => strLtB_ne h) hn
  by_cases hcond : (M2.getLast hM2ne).maxK < coerce_index stop ∧
      (pIndex ps).length > P1.length + (M2.length - 1) + 1
  · -- the next partition is appended
    have hcond2 := hcond
    rw [pIndex_length] at hcond2
    have hP3ne : P3 ≠ [] := by
      have := hcond2.2
      rw [← List.length_pos]
      omega
    have hgetD1 : (ps.map Part.name).getD (P1.length + (M2.length - 1) + 1) ""
        = (P3.head hP3ne).name := by
      rw [List.getD_eq_get?]
      have hb1 : P1.length + (M2.length - 1) + 1 = P1.length + M2.length := by omega
      rw [hb1, hsplit, get?_head_after_map Part.name P1 M2 P3 hP3ne]
      rfl
    have hP3eq : P3 = P3.head hP3ne :: P3.tail := (List.head_cons_tail P3 hP3ne).symm
    have hmapP3 : P3.map Part.name
        = (P3.head hP3ne).name :: (P3.tail).map Part.name := by
      conv_lhs => rw [hP3eq]
      rfl
    have hmid : ps.map Part.name
        = P1.map Part.name ++ (M2.map Part.name ++ [(P3.head hP3ne).name])
            ++ (P3.tail).map Part.name := by
      rw [hsplit, List.map_append, List.map_append, hmapP3]
      simp [List.append_assoc]
    refine ⟨M2.map Part.name ++ [(P3.head hP3ne).name], ?_,
      ⟨P1.map Part.name, (P3.tail).map Part.name, hmid⟩, ?_, ?_, ?_⟩
    · rw [hsel, if_pos hcond, hgetD1]
    · exact List.Nodup.sublist (sublist_of_mid hmid) hnodup
    · intro p hp hint
      rw [hsplit] at hp
      rcases List.mem_append.1 hp with hp12 | hp3
      · rcases List.mem_append.1 hp12 with hp1 | hp2
        · exfalso
          have ha := h1 p hp1
          have hb := hint.1
          omega
        · exact List.mem_append_left _ (List.mem_map_of_mem Part.name hp2)
      · rw [hP3eq] at hp3
        rcases List.mem_cons.1 hp3 with heq | htl
        · rw [heq]
          exact List.mem_append_right _ (by simp)
        · exfalso
          rw [hP3eq, List.pairwise_cons] at hpw3
          have hhp := hpw3.1 p htl
          have hh3 := h3 (P3.head hP3ne) (List.head_mem hP3ne)
          have hc2 := hint.2
          omega
    · intro n hn2
      rw [List.dropLast_concat] at hn2
      obtain ⟨p, hp, rfl⟩ := List.mem_map.1 hn2
      obtain ⟨hpps, hc1, hc2⟩ := hM2mem p hp
      exact ⟨p, hpps, rfl, hc1, le_trans (hminmax p hpps) hc2⟩
  · -- nothing appended
    have hmid : ps.map Part.name
        = P1.map Part.name ++ M2.map Part.name ++ P3.map Part.name := by
      rw [hsplit, List.map_append, List.map_append]
    refine ⟨M2.map Part.name, ?_,
      ⟨P1.map Part.name, P3.map Part.name, hmid⟩, ?_, ?_, ?_⟩
    · rw [hsel, if_neg hcond]
    · exact List.Nodup.sublist (sublist_of_mid hmid) hnodup
    · intro p hp hint
      rw [hsplit] at hp
      rcases List.mem_append.1 hp with hp12 | hp3
      · rcases List.mem_append.1 hp12 with hp1 | hp2
        · exfalso
          have ha := h1 p hp1
          have hb := hint.1
          omega
        · exact List.mem_map_of_mem Part.name hp2
      · exfalso
        have hP3ne : P3 ≠ [] := by
          intro hnil
          rw [hnil] at hp3
          cases hp3
        have hP3eq : P3 = P3.head hP3ne :: P3.tail := (List.head_cons_tail P3 hP3ne).symm
        have hp3b := hp3
        rw [hP3eq] at hp3b
        rcases List.mem_cons.1 hp3b with heq | htl
        · refine hcond ⟨?_, ?_⟩
          · have hlastmem : M2.getLast hM2ne ∈ M2 := List.getLast_mem hM2ne
            have hc := hcross (M2.getLast hM2ne)
              (List.mem_append_right _ hlastmem) p hp3
            have hc2 := hint.2
            show (M2.getLast hM2ne).maxK < coerce_index stop
            unfold coerce_index
            omega
          · rw [pIndex_length]
            have hpos : 0 < P3.length := List.length_pos.2 hP3ne
            omega
        · rw [hP3eq, List.pairwise_cons] at hpw3
          have hhp := hpw3.1 p htl
          have hh3 := h3 (P3.head hP3ne) (List.head_mem hP3ne)
          have hc2 := hint.2
          omega
    · intro n hn2
      have hn3 := (List.dropLast_sublist (M2.map Part.name)).subset hn2
      obtain ⟨p, hp, rfl⟩ := List.mem_map.1 hn3
      obtain ⟨hpps, hc1, hc2⟩ := hM2mem p hp
      exact ⟨p, hpps, rfl, hc1, le_trans (hminmax p hpps) hc2⟩

/-- **C2** counterexample: partitions `[0,9] -> "a"` and `[20,29] -> "b"`
come from disjoint, increasing `extend` calls (with a key gap 10..19),
yet `select_partitions` over `[0, 15]` returns `["a", "b"]` although the
key range of `"b"` does not intersect `[0, 15]` — the result is not
"exactly the partitions whose key range intersects the interval". -/
theorem C2_counterexample :
    validParts [⟨0, 9, "a"⟩, ⟨20, 29, "b"⟩] ∧
    select_partitions (pIndex [⟨0, 9, "a"⟩, ⟨20, 29, "b"⟩]) 0 15 = some ["a", "b"] ∧
    (([⟨0, 9, "a"⟩, ⟨20, 29, "b"⟩] : List Part).filter
        (fun p => decide (intersects p 0 15))).map Part.name = ["a"] ∧
    (["a", "b"] : List String) ≠ ["a"] := by
  decide

/-- Witness for `C2_select_partitions_covering` on the spec's own
example: partitions with keys `0..9` and `10..19`, query `[3, 15]`. -/
theorem C2_select_partitions_covering_witness :
    ∃ names,
      select_partitions (pIndex [⟨0, 9, "0--9"⟩, ⟨10, 19, "10--19"⟩]) 3 15
        = some names ∧
      (∃ pre suf, ([⟨0, 9, "0--9"⟩, ⟨10, 19, "10--19"⟩] : List Part).map Part.name
        = pre ++ names ++ suf) ∧
      names.Nodup ∧
      (∀ p ∈ ([⟨0, 9, "0--9"⟩, ⟨10, 19, "10--19"⟩] : List Part),
        intersects p 3 15 → p.name ∈ names) ∧
      (∀ n ∈ names.dropLast,
        ∃ p ∈ ([⟨0, 9, "0--9"⟩, ⟨10, 19, "10--19"⟩] : List Part),
          p.name = n ∧ intersects p 3 15) :=
  C2_select_partitions_covering [⟨0, 9, "0--9"⟩, ⟨10, 19, "10--19"⟩] 3 15
    (by decide) (by decide) (by decide)

/-! ## C4: what `_decategorize` appends, and in which order -/

/-- **C4** (corrected): for a tracked column, `_decategorize` appends to
the dictionary exactly the batch's distinct values that were missing
from it — each once, codes being positions in the updated dictionary —
but in *set-iteration* order (`list(set(..) - set(..))`), which is not
the order of first occurrence in the batch. -/
theorem C4_decategorize_appends_new_values (cats df e nc cd : Table)
    (col : String) (cat xs : List PyVal)
    (h : _decategorize cats df = some (e, nc, cd))
    (hcol : aget cats col = some cat) (hxs : aget df col = some xs) :
    ∃ ex, aget e col = some ex ∧ aget nc col = some (cat ++ ex) ∧
      ex.Nodup ∧ (∀ v, v ∈ ex ↔ v ∈ xs ∧ v ∉ cat) ∧
      aget cd col = some (xs.map (fun v => PyVal.int ((cat ++ ex).indexOf v))) ∧
      (∀ v ∈ xs, (cat ++ ex).get? ((cat ++ ex).indexOf v) = some v) := by
  obtain ⟨he, hnc, hcd⟩ := _decategorize_eq_some h
  have hmemdf := aget_mem hxs
  unfold decatNewDf at hcd
  have hsome := omap_isSome_of_mem hcd (col, xs) hmemdf
  dsimp only at hsome
  rw [hcol] at hsome
  dsimp only at hsome
  rw [Option.isSome_map'] at hsome
  obtain ⟨cs, hcs⟩ := Option.isSome_iff_exists.1 hsome
  have hnd := pyCatCodes_nodup hcs
  refine ⟨pySetDiff xs cat, ?_, ?_, nodup_pySetDiff xs cat,
    fun v => mem_pySetDiff, ?_, ?_⟩
  · rw [aget_omap (fun cat xs => pySetDiff xs cat) df cats e he col, hcol]
    simp [hxs]
  · rw [aget_omap (fun cat xs => cat ++ pySetDiff xs cat) df cats nc hnc col, hcol]
    simp [hxs]
  · rw [aget_decatNewDf cats df cd (by unfold decatNewDf; exact hcd) col, hxs]
    simp only [Option.some_bind, hcol]
    unfold pyCatCodes
    rw [if_pos hnd]
    refine congrArg some (List.map_congr_left ?_)
    intro v hv
    rw [if_pos (mem_newCat hv)]
  · intro v hv
    exact get?_indexOf (mem_newCat hv)

/-- **C4** counterexample: with an empty dictionary and batch values
`[2, 1]`, the code appends `[1, 2]` (CPython's iteration order for the
set `{2, 1}`), not the first-seen order `[2, 1]` the claim requires, and
codes the column as `[1, 0]` instead of `[0, 1]`. -/
theorem C4_counterexample :
    _decategorize [("y", [])] [("y", [PyVal.int 2, PyVal.int 1])]
      = some ([("y", [PyVal.int 1, PyVal.int 2])],
              [("y", [PyVal.int 1, PyVal.int 2])],
              [("y", [PyVal.int 1, PyVal.int 0])]) ∧
    firstSeenNew [PyVal.int 2, PyVal.int 1] [] = [PyVal.int 2, PyVal.int 1] ∧
    ([PyVal.int 1, PyVal.int 2] : List PyVal) ≠ [PyVal.int 2, PyVal.int 1] := by
  decide

/-- Witness for `C4_decategorize_appends_new_values` on the docstring
example (`{y: [A, B]}` with batch `y = [C, B, B]`). -/
theorem C4_decategorize_appends_new_values_witness :
    ∃ ex, aget [("y", [PyVal.str "C"])] "y" = some ex ∧
      aget [("y", [PyVal.str "A", PyVal.str "B", PyVal.str "C"])] "y"
        = some ([PyVal.str "A", PyVal.str "B"] ++ ex) ∧
      ex.Nodup ∧
      (∀ v, v ∈ ex ↔ v ∈ [PyVal.str "C", PyVal.str "B", PyVal.str "B"] ∧
        v ∉ [PyVal.str "A", PyVal.str "B"]) ∧
      aget [("x", [PyVal.int 1, PyVal.int 2, PyVal.int 3]),
            ("y", [PyVal.int 2, PyVal.int 1, PyVal.int 1])] "y"
        = some ([PyVal.str "C", PyVal.str "B", PyVal.str "B"].map
            (fun v => PyVal.int ((([PyVal.str "A", PyVal.str "B"] ++ ex)).indexOf v))) ∧
      (∀ v ∈ [PyVal.str "C", PyVal.str "B", PyVal.str "B"],
        (([PyVal.str "A", PyVal.str "B"] ++ ex)).get?
            ((([PyVal.str "A", PyVal.str "B"] ++ ex)).indexOf v) = some v) :=
  C4_decategorize_appends_new_values
    [("y", [PyVal.str "A", PyVal.str "B"])]
    [("x", [PyVal.int 1, PyVal.int 2, PyVal.int 3]),
     ("y", [PyVal.str "C", PyVal.str "B", PyVal.str "B"])]
    [("y", [PyVal.str "C"])]
    [("y", [PyVal.str "A", PyVal.str "B", PyVal.str "C"])]
    [("x", [PyVal.int 1, PyVal.int 2, PyVal.int 3]),
     ("y", [PyVal.int 2, PyVal.int 1, PyVal.int 1])]
    "y" [PyVal.str "A", PyVal.str "B"] [PyVal.str "C", PyVal.str "B", PyVal.str "B"]
    (by decide) (by decide) (by decide)

/-! ## C9: dictionary codes are stable -/

/-- **C9** (confirmed): the dictionary `_decategorize` returns for a
tracked column extends the previous dictionary at the end — the previous
dictionary is a prefix, every existing position decodes to the same
value, and the code (`indexOf`) of every previously present value is
unchanged — so previously written coded files stay decodable. -/
theorem C9_dictionary_codes_stable (cats df e nc cd : Table) (col : String)
    (cat : List PyVal) (h : _decategorize cats df = some (e, nc, cd))
    (hcol : aget cats col = some cat) :
    ∃ ex, aget nc col = some (cat ++ ex) ∧
      (∀ i, i < cat.length → (cat ++ ex).get? i = cat.get? i) ∧
      (∀ v ∈ cat, (cat ++ ex).indexOf v = cat.indexOf v) := by
  obtain ⟨-, hnc, -⟩ := _decategorize_eq_some h
  have hmem := aget_mem hcol
  unfold decatNewCats at hnc
  have hsome := omap_isSome_of_mem hnc (col, cat) hmem
  dsimp only at hsome
  rw [Option.isSome_map'] at hsome
  obtain ⟨xs, hxs⟩ := Option.isSome_iff_exists.1 hsome
  refine ⟨pySetDiff xs cat, ?_, ?_, ?_⟩
  · rw [aget_omap (fun cat xs => cat ++ pySetDiff xs cat) df cats nc hnc col, hcol]
    simp [hxs]
  · intro i hi
    exact List.get?_append hi
  · intro v hv
    exact List.indexOf_append_of_mem hv

/-- Witness for `C9_dictionary_codes_stable` on the docstring example:
the dictionary `[A, B]` is a prefix of the updated `[A, B, C]`. -/
theorem C9_dictionary_codes_stable_witness :
    ∃ ex, aget [("y", [PyVal.str "A", PyVal.str "B", PyVal.str "C"])] "y"
        = some ([PyVal.str "A", PyVal.str "B"] ++ ex) ∧
      (∀ i, i < ([PyVal.str "A", PyVal.str "B"] : List PyVal).length →
        (([PyVal.str "A", PyVal.str "B"] ++ ex)).get? i
          = ([PyVal.str "A", PyVal.str "B"] : List PyVal).get? i) ∧
      (∀ v ∈ ([PyVal.str "A", PyVal.str "B"] : List PyVal),
        (([PyVal.str "A", PyVal.str "B"] ++ ex)).indexOf v
          = ([PyVal.str "A", PyVal.str "B"] : List PyVal).indexOf v) :=
  C9_dictionary_codes_stable
    [("y", [PyVal.str "A", PyVal.str "B"])]
    [("x", [PyVal.int 1, PyVal.int 2, PyVal.int 3]),
     ("y", [PyVal.str "C", PyVal.str "B", PyVal.str "B"])]
    [("y", [PyVal.str "C"])]
    [("y", [PyVal.str "A", PyVal.str "B", PyVal.str "C"])]
    [("x", [PyVal.int 1, PyVal.int 2, PyVal.int 3]),
     ("y", [PyVal.int 2, PyVal.int 1, PyVal.int 1])]
    "y" [PyVal.str "A", PyVal.str "B"]
    (by decide) (by decide)

/-! ## C3: behaviour of `select_partitions` when nothing matches -/

/-- **C3** (corrected): `select_partitions` *raises* when no partition's
`max_key` falls in the requested interval, rather than returning an
empty list: on an empty partition index, and whenever `start > stop`
(so the label slice is empty), `names[-1]` raises `IndexError`
(modelled as `none`). -/
theorem C3_select_partitions_raises_on_empty_match :
    (∀ start stop : Int, select_partitions [] start stop = none) ∧
    (∀ (parts : List (Int × String)) (start stop : Int),
      (parts.map Prod.fst).Pairwise (· < ·) → stop < start →
      select_partitions parts start stop = none) := by
  constructor
  · intro s t; rfl
  · intro parts s t _ hlt
    have h : locSlice parts s t = [] := by
      unfold locSlice
      rw [List.filter_eq_nil_iff.2]
      · rfl
      · intro p _
        simp only [decide_eq_true_eq, not_and]
        omega
    simp [select_partitions, h]

/-- Witness for `C3_select_partitions_raises_on_empty_match` at concrete
inputs. -/
theorem C3_select_partitions_raises_on_empty_match_witness :
    select_partitions [] 2 5 = none ∧ select_partitions [(9, "0--9")] 5 3 = none :=
  ⟨C3_select_partitions_raises_on_empty_match.1 2 5,
   C3_select_partitions_raises_on_empty_match.2 [(9, "0--9")] 5 3 (by decide) (by decide)⟩

/-- **C3** counterexample: contrary to the claim, an empty partition
index does not yield an empty list — the call raises (`names[-1]` on an
empty list), modelled as `none`. -/
theorem C3_counterexample :
    select_partitions [] 0 5 = none ∧
    select_partitions [] 0 5 ≠ some [] := by
  exact ⟨rfl, by decide⟩

/-! ## C5: missing dictionary files on load -/

/-- **C5** (corrected): `load_categories` never raises on a missing
dictionary file, but a column whose file is missing is *skipped
entirely* — left untracked — rather than tracked with an empty
dictionary; columns whose file exists are loaded with their logged
entries. -/
theorem C5_load_categories_skips_missing_files (columns : List String) (fs : CatFS) :
    (∀ col, aget fs col = none → aget (load_categories columns fs) col = none) ∧
    (∀ col l, col ∈ columns → aget fs col = some l →
      aget (load_categories columns fs) col = some l) := by
  constructor
  · intro col h
    induction columns with
    | nil => rfl
    | cons c cs ih =>
      unfold load_categories at ih ⊢
      simp only [List.filterMap_cons]
      cases hc : aget fs c with
      | none => simpa using ih
      | some l =>
        simp only [Option.map_some']
        rw [aget_cons]
        split
        · next heq =>
          have heq2 : c = col := heq
          rw [heq2, h] at hc
          cases hc
        · exact ih
  · intro col l hmem hsome
    induction columns with
    | nil => cases hmem
    | cons c cs ih =>
      unfold load_categories at ih ⊢
      simp only [List.filterMap_cons]
      rcases List.mem_cons.1 hmem with rfl | hmem'
      · rw [hsome]
        simp [aget_cons]
      · cases hc : aget fs c with
        | none => simpa using ih hmem'
        | some lc =>
          simp only [Option.map_some']
          rw [aget_cons]
          split
          · next heq =>
            have heq2 : c = col := heq
            rw [heq2, hsome] at hc
            injection hc with h2
            simp [h2]
          · exact ih hmem'

/-- Witness for `C5_load_categories_skips_missing_files` at concrete
inputs: column `y` has no file and ends up untracked, column `x` has a
file and is loaded. -/
theorem C5_load_categories_skips_missing_files_witness :
    aget (load_categories ["x", "y"] [("x", [PyVal.str "A"])]) "y" = none ∧
    aget (load_categories ["x", "y"] [("x", [PyVal.str "A"])]) "x"
      = some [PyVal.str "A"] :=
  ⟨(C5_load_categories_skips_missing_files ["x", "y"] [("x", [PyVal.str "A"])]).1
      "y" (by decide),
   (C5_load_categories_skips_missing_files ["x", "y"] [("x", [PyVal.str "A"])]).2
      "x" [PyVal.str "A"] (by decide) (by decide)⟩

/-- **C5** counterexample: a store created with categorical column `y`
and no observed values writes no dictionary file (`append_categories`
skips empty entry lists), and after reopening, `load_categories` leaves
`y` *untracked* — not tracked with an empty dictionary as claimed. -/
theorem C5_counterexample :
    append_categories [] [("y", [])] = [] ∧
    load_categories ["y"] [] = [] ∧
    aget (load_categories ["y"] ([] : CatFS)) "y" ≠ some ([] : List PyVal) := by
  refine ⟨rfl, rfl, by decide⟩

/-! ## C6: the `flush_meta` / `load_meta` round trip -/

/-- **C6** (code bug): `flush_meta` writes the attributes `columns`,
`dtypes`, `index_dtype`, but `load_meta` executes
`self.columns, self.dtype, self.index_dtype = meta`, assigning the
loaded dtypes map to the attribute `dtype` and leaving `dtypes` unset on
the reopened instance — the round trip does not restore the per-column
data type map under its own name (a later `flush_meta` would raise
`AttributeError`). -/
theorem C6_load_meta_misassigns_dtypes :
    flush_meta ⟨some ["x", "y"], some [("x", "int64"), ("y", "object")],
        none, some "int64"⟩
      = some ⟨some ["x", "y"], some [("x", "int64"), ("y", "object")], some "int64"⟩ ∧
    load_meta ⟨some ["x", "y"], some [("x", "int64"), ("y", "object")], some "int64"⟩
        ⟨none, none, none, none⟩
      = some ⟨some ["x", "y"], none, some [("x", "int64"), ("y", "object")],
          some "int64"⟩ ∧
    (⟨some ["x", "y"], none, some [("x", "int64"), ("y", "object")],
        some "int64"⟩ : PyAttrs).dtypes = none :=
  ⟨rfl, rfl, rfl⟩

/-! ## C7: `extend` on an empty table -/

/-- **C7** (corrected): `extend` performs no explicit non-emptiness
validation; with an empty input table the failure is the incidental
`ValueError` raised by `index.min()` on a zero-size array while
computing the partition bounds (before any partition directory is
created or any index update happens). -/
theorem C7_extend_empty_raises_reduction_error
    (parts : List (Int × String)) (minimum : Option Int) :
    extend parts minimum [] = Except.error ExtendError.emptyReduction := rfl

/-- **C7** counterexample: at a concrete store state, `extend` with an
empty key column fails with the empty-reduction `ValueError`, which is
not the validation failure the claim describes. -/
theorem C7_counterexample :
    extend [(5, "0--5")] (some 0) [] = Except.error ExtendError.emptyReduction ∧
    ExtendError.emptyReduction ≠ ExtendError.validation :=
  ⟨rfl, by decide⟩

/-! ## C8: `pack_file` / `unpack_file` round trip -/

/-- **C8** (confirmed): for every array, `unpack_file (pack_file x)`
recovers the array's values: numeric/temporal dtypes travel through the
bloscpack path, object dtypes through serialize-then-compress, and the
decoder's probe order (bloscpack first, generic fallback on its
`ValueError`) resolves the right path without the caller knowing which
one wrote the file.  For object arrays the first-attempt decoder indeed
fails, exercising the fallback. -/
theorem C8_pack_unpack_roundtrip (x : NpArray) :
    unpack_file (pack_file x) = Except.ok x.values ∧
    (x.dtype = Dtype.object → bloscpackUnpack (pack_file x) = Except.error ()) := by
  obtain ⟨dt, sz, vals⟩ := x
  cases dt <;>
    simp [pack_file, unpack_file, bloscpackUnpack, genericUnpack, blosc_args]

/-- Witness for `C8_pack_unpack_roundtrip` on a concrete object array,
discharging the object-dtype hypothesis of the fallback conjunct. -/
theorem C8_pack_unpack_roundtrip_witness :
    unpack_file (pack_file ⟨Dtype.object, 8, [PyVal.str "a", PyVal.str "b"]⟩)
      = Except.ok [PyVal.str "a", PyVal.str "b"] ∧
    bloscpackUnpack (pack_file ⟨Dtype.object, 8, [PyVal.str "a", PyVal.str "b"]⟩)
      = Except.error () :=
  ⟨(C8_pack_unpack_roundtrip ⟨Dtype.object, 8, [PyVal.str "a", PyVal.str "b"]⟩).1,
   (C8_pack_unpack_roundtrip ⟨Dtype.object, 8, [PyVal.str "a", PyVal.str "b"]⟩).2 rfl⟩

/-! ## C10: `extend` with a duplicate max key -/

/-- **C10** (confirmed): `extend` checks nothing about the new batch's
keys: when the batch's max key `mx` equals an existing partition's index
key, the Series item assignment silently overwrites that entry with the
new partition's name (the old name disappears from the index when it
named only that entry), the index gains no entry, and the global minimum
is left untouched (it is only ever set when the index was empty) even
when the new batch's min key `mn` is smaller than every existing key. -/
theorem C10_extend_overwrites_duplicate_max
    (parts : List (Int × String)) (minimum : Option Int) (mn mx : Int) (old : String)
    (hmem : (mx, old) ∈ parts) :
    (extendIndex parts minimum mn mx).2 = minimum ∧
    ((extendIndex parts minimum mn mx).1).length = parts.length ∧
    aget ((extendIndex parts minimum mn mx).1) mx = some (partName mn mx) ∧
    ((∀ p ∈ parts, p.2 = old → p.1 = mx) → old ≠ partName mn mx →
      old ∉ ((extendIndex parts minimum mn mx).1).map Prod.snd) := by
  have hne : parts ≠ [] := by rintro rfl; cases hmem
  have hlen : parts.length ≠ 0 := by
    simpa [List.length_eq_zero] using hne
  have hany : parts.any (fun p => decide (p.1 = mx)) = true :=
    List.any_eq_true.2 ⟨(mx, old), hmem, by simp⟩
  refine ⟨?_, ?_, ?_, ?_⟩
  · simp [extendIndex, hlen]
  · simp [extendIndex, seriesSet, hany]
  · simp only [extendIndex, seriesSet, hany, if_true]
    exact aget_map_set mx (partName mn mx) parts ⟨(mx, old), hmem, rfl⟩
  · intro hall hnold hcontra
    simp only [extendIndex, seriesSet, hany, if_true, List.map_map,
      List.mem_map, Function.comp] at hcontra
    rcases hcontra with ⟨p, hp, hpv⟩
    by_cases hpk : p.1 = mx
    · rw [if_pos hpk] at hpv
      exact hnold hpv.symm
    · rw [if_neg hpk] at hpv
      exact hpk (hall p hp hpv)

/-- Witness for `C10_extend_overwrites_duplicate_max`: a one-partition
index keyed at 5; a second `extend` whose batch spans keys -2..5
overwrites the entry at 5 and leaves the minimum at 0. -/
theorem C10_extend_overwrites_duplicate_max_witness :
    (extendIndex [(5, "0--5")] (some 0) (-2) 5).2 = some 0 ∧
    ((extendIndex [(5, "0--5")] (some 0) (-2) 5).1).length = 1 ∧
    aget ((extendIndex [(5, "0--5")] (some 0) (-2) 5).1) 5 = some (partName (-2) 5) ∧
    "0--5" ∉ ((extendIndex [(5, "0--5")] (some 0) (-2) 5).1).map Prod.snd := by
  have h := C10_extend_overwrites_duplicate_max [(5, "0--5")] (some 0) (-2) 5 "0--5"
    (by decide)
  exact ⟨h.1, h.2.1, h.2.2.1, h.2.2.2 (by decide) (by decide)⟩

end Castra
